import Mathlib

set_option autoImplicit false

/-! Verification development for the seed-phrase recovery tool.

The TypeScript source is shallowly embedded: each `def` below mirrors one
function of the repository (`src/create.ts`, helpers, `src/progress.ts`,
`src/manager.ts`, `src/query.ts`, `src/recover.ts`).  The JavaScript slot type
`string | string[] | undefined` becomes the `Slot` inductive; `bigint`
arithmetic becomes `Int`/`Nat` (exact, as BigInt is); a thrown JavaScript
exception becomes `Except.error`; the BIP-39 English wordlist is an external
constant of 2048 words and is passed as an explicit `wordList` parameter. -/

/-- A resolved word slot, mirroring one entry of `PartialWithCandidates`:
a confirmed wordlist word (`string`), a non-empty list of prefix candidates
(`string[]`), or a fully missing word (`undefined`). -/
inductive Slot where
  | fixed (w : String)
  | cands (ws : List String)
  | unknown
  deriving DecidableEq, Repr

/-- `needle.isPrefixOf haystack` over character lists, written out so the
string operations below are self-contained and computable by the kernel. -/
def leadsList : List Char → List Char → Bool
  | [], _ => true
  | _ :: _, [] => false
  | a :: as', b :: bs => a == b && leadsList as' bs

/-- JavaScript `w.startsWith(s)` on strings. -/
def strStartsWith (w s : String) : Bool :=
  leadsList s.data w.data

/-- One token of the user-supplied partial mnemonic resolved to a slot,
mirroring the loop body of `createPartialWithCandidates` in `src/create.ts`
(lines 32-53): a word in the wordlist is kept fixed; otherwise the wordlist
words starting with the token are collected, and the slot becomes `unknown`
for zero matches, fixed for one match, and a candidate list for several. -/
def resolveToken (wordList : List String) : Option String → Slot
  | none => .unknown
  | some s =>
    if wordList.contains s then .fixed s
    else
      let cs := wordList.filter (fun w => strStartsWith w s)
      if cs.length = 0 then .unknown
      else if cs.length = 1 then .fixed (cs.headD "")
      else .cands cs

/-- `createPartialWithCandidates` from `src/create.ts`: resolve every token. -/
def createPartialWithCandidates (wordList : List String) (partialMnemonic : List (Option String)) :
    List Slot :=
  partialMnemonic.map (resolveToken wordList)

/-- `getMissingPositionsAndCandidates` (imported by `src/create.ts`; its body
matches the inline extraction in the earlier `recover.ts` revision, lines
136-153): the positions of the non-fixed slots, and for each such slot its
candidate list (`some ws`) or `none` standing for JavaScript `undefined`
(meaning the whole wordlist applies). -/
def getMissingPositionsAndCandidates (pwc : List Slot) :
    List Nat × List (Option (List String)) :=
  (pwc.enum.filterMap fun p =>
      match p.2 with
      | .fixed _ => none
      | _ => some p.1,
    pwc.filterMap fun s =>
      match s with
      | .fixed _ => none
      | .cands ws => some (some ws)
      | .unknown => some none)

/-- JavaScript array join with separator a space, over a list of words. -/
def joinSp : List String → String
  | [] => ""
  | [w] => w
  | w :: ws => w ++ " " ++ joinSp ws

/-- JavaScript `haystack.includes(needle)`: `needle` occurs contiguously in
`haystack`. -/
def containsSub (needle : List Char) : List Char → Bool
  | [] => leadsList needle []
  | c :: t => leadsList needle (c :: t) || containsSub needle t

/-- `hay.includes(needle)` on strings, as used by `permutationsGenerator`. -/
def strIncludes (hay needle : String) : Bool :=
  containsSub needle.data hay.data

/-- The word sequence built by `getPartialMnemonicWithMissingWords`
(helpers, lines 16-31): fixed slots keep their word, the first `wordsToUse`
non-fixed slots take successive entries of `missingWords` (JavaScript yields
`undefined`, joined as `""`, if `missingWords` is too short), and the
remaining non-fixed slots show `"*"`. -/
def fillWords : List Slot → List String → Nat → List String
  | [], _, _ => []
  | .fixed w :: rest, ms, n => w :: fillWords rest ms n
  | _ :: rest, ms, 0 => "*" :: fillWords rest ms 0
  | _ :: rest, [], Nat.succ n => "" :: fillWords rest [] n
  | _ :: rest, m :: ms, Nat.succ n => m :: fillWords rest ms n

/-- `getPartialMnemonicWithMissingWords` from the helpers file: the space-join
of `fillWords`. -/
def getPartialMnemonicWithMissingWords (pwc : List Slot) (missingWords : List String)
    (wordsToUse : Nat) : String :=
  joinSp (fillWords pwc missingWords wordsToUse)

/-- The word sequence built by `getFullMnemonicFromCandidates`: fixed slots
keep their word, non-fixed slots take successive entries of the combination
(JavaScript yields `undefined`, joined as `""`, when it runs out). -/
def fillFull : List Slot → List String → List String
  | [], _ => []
  | .fixed w :: rest, ms => w :: fillFull rest ms
  | _ :: rest, [] => "" :: fillFull rest []
  | _ :: rest, m :: ms => m :: fillFull rest ms

/-- `getFullMnemonicFromCandidates` from the helpers file. -/
def getFullMnemonicFromCandidates (pwc : List Slot) (combo : List String) : String :=
  joinSp (fillFull pwc combo)

/-- The words held by the fixed slots, in order. -/
def fixedWords (pwc : List Slot) : List String :=
  pwc.filterMap fun s => match s with | .fixed w => some w | _ => none

/-- The recursive tuple producer `permutationsGenerator` inside
`createCombinationsGenerator` (`src/create.ts` lines 85-116), with the chunk
buffering stripped: the list of tuples pushed at the leaves, in depth-first
order.  At each depth the candidate list (or, for `undefined`, the whole
wordlist — JavaScript `candidateLists[depth] || wordList`) is iterated in
order; when `repeating` is false a candidate `w` is skipped whenever
`testMnemonic.includes(w)` holds for the partially assembled phrase. -/
def permRec (wordList : List String) (pwc : List Slot) (repeating : Bool) :
    List (Option (List String)) → List String → List (List String)
  | [], cur => [cur]
  | c :: rest, cur =>
    (c.getD wordList).flatMap fun w =>
      if !repeating && strIncludes (getPartialMnemonicWithMissingWords pwc cur cur.length) w then
        []
      else
        permRec wordList pwc repeating rest (cur ++ [w])

/-- The full tuple stream of `createCombinationsGenerator`, in emission
order. -/
def genTuples (wordList : List String) (pwc : List Slot) (repeating : Bool) :
    List (List String) :=
  permRec wordList pwc repeating (getMissingPositionsAndCandidates pwc).2 []

/-- The chunk buffering of `createCombinationsGenerator` under the constant
chunk-size protocol: tuples are accumulated in `combinations` in stream order;
once the buffer reaches `chunkSize` it is yielded and reset, and a final
non-empty leftover is yielded at the end (`src/create.ts` lines 89-96 and
125-127). -/
def chunkEmit (chunkSize : Nat) : List (List String) → List (List String) →
    List (List (List String))
  | [], buf => if buf.isEmpty then [] else [buf]
  | t :: ts, buf =>
    let b2 := buf ++ [t]
    if chunkSize ≤ b2.length then b2 :: chunkEmit chunkSize ts []
    else chunkEmit chunkSize ts b2

/-- The chunk stream of `createCombinationsGenerator` when every `next` call
passes the same chunk size: the handshake emission `yield [[]]` (line 121)
followed by the buffered chunks of the tuple stream. -/
def createCombinationsGenerator (wordList : List String) (pwc : List Slot)
    (repeating : Bool) (chunkSize : Nat) : List (List (List String)) :=
  [[]] :: chunkEmit chunkSize (genTuples wordList pwc repeating) []

/-- `getUpperBound` from the helpers file (lines 38-71), with BigInt
arithmetic embedded as `Int`.  `numberMissing` counts the `undefined` slots,
`partials` collects the candidate arrays, and `loweredAllWords` is
`2048 - (length - numberMissing)`. -/
def getUpperBound (pwc : List Slot) (repeating : Bool) : Int :=
  let numberMissing :=
    (pwc.filter fun s => match s with | .unknown => true | _ => false).length
  let partials := pwc.filterMap fun s => match s with | .cands ws => some ws | _ => none
  let loweredAllWords : Int := 2048 - ((pwc.length : Int) - (numberMissing : Int))
  if repeating then
    (2048 : Int) ^ numberMissing *
      ((partials.foldl (fun acc c => acc * c.length) 1 : Nat) : Int)
  else
    ((partials.foldl (fun acc c => acc * c.length) 1 : Nat) : Int) *
      ((List.range numberMissing).foldl (fun (acc : Int) (i : Nat) => acc * (loweredAllWords - i)) 1)

/-- The digit-extraction loop of `getCombinationAtIndex` (`src/create.ts`
lines 157-165).  BigInt division by zero throws in JavaScript, embedded as
`Except.error`: it is reached when a candidate list is empty (first division)
or when `combinationsAfterThis` underflows to zero (second division).  An
out-of-range array read yields JavaScript `undefined`, embedded as `none`. -/
def gcaiGo (wordList : List String) :
    List (Option (List String)) → Nat → Nat → Except Unit (List (Option String))
  | [], _, _ => .ok []
  | c :: rest, total, rem =>
    let cands := c.getD wordList
    if cands.length = 0 then .error ()
    else
      let after := total / cands.length
      if after = 0 then .error ()
      else
        match gcaiGo wordList rest after (rem % after) with
        | .error e => .error e
        | .ok t => .ok (cands[rem / after]? :: t)

/-- `getCombinationAtIndex` from `src/create.ts` (lines 137-168): `none` for
no missing positions or an out-of-range index, otherwise the digit loop. -/
def getCombinationAtIndex (wordList : List String) (pwc : List Slot) (repeating : Bool)
    (targetIndex : Nat) : Except Unit (Option (List (Option String))) :=
  let cls := (getMissingPositionsAndCandidates pwc).2
  if cls.length = 0 then .ok none
  else
    let total := (getUpperBound pwc repeating).toNat
    if total ≤ targetIndex then .ok none
    else
      match gcaiGo wordList cls total targetIndex with
      | .error e => .error e
      | .ok t => .ok (some t)

/-- The effective per-position candidate lists: each non-fixed slot's list,
with `undefined` replaced by the whole wordlist. -/
def effLists (wordList : List String) (pwc : List Slot) : List (List String) :=
  (getMissingPositionsAndCandidates pwc).2.map (fun o => o.getD wordList)

/-- The mixed-radix modulus: the product of the candidate-list sizes. -/
def listProd (Ls : List (List String)) : Nat :=
  (Ls.map List.length).prod

/-- The cartesian product of the candidate lists in lexicographic order,
position 0 most significant. -/
def prodLists : List (List String) → List (List String)
  | [] => [[]]
  | c :: r => c.flatMap fun w => (prodLists r).map (w :: ·)

/-- Modelled from the spec: the mixed-radix decoding of index `i` over the
basis of candidate-list sizes, most-significant digit first. -/
def decodeMix : List (List String) → Nat → List String
  | [], _ => []
  | cs :: r, i => (cs[i / listProd r]?).getD "" :: decodeMix r (i % listProd r)

/-- Persisted progress state (`src/progress.ts`), restricted to the fields
the coordinator claims concern. -/
structure ProgressState where
  lastProcessedIndex : Nat
  chunksProcessed : Nat
  deriving DecidableEq, Repr

/-- `ProgressTracker.updateProgress` (`src/progress.ts` lines 62-67): the
committed index is overwritten with `processedIndex` unconditionally. -/
def updateProgress (st : ProgressState) (processedIndex : Nat) (chunksProcessed : Nat) :
    ProgressState :=
  { lastProcessedIndex := processedIndex,
    chunksProcessed := st.chunksProcessed + chunksProcessed }

/-- The tag of a worker result message. -/
inductive WResultType where
  | chunkComplete
  | matchFound
  | loadedWalletFound
  | workerError
  deriving DecidableEq, Repr

/-- A worker result, restricted to the fields that drive progress. -/
structure WResult where
  rtype : WResultType
  endIndex : Nat
  deriving DecidableEq, Repr

/-- The progress effect of `WorkerManager.handleWorkerResult`
(`src/manager.ts` lines 239-250): `updateProgress(result.endIndex, 1)` is
called before any branching on the result type. -/
def handleWorkerResultProgress (st : ProgressState) (r : WResult) : ProgressState :=
  updateProgress st r.endIndex 1

/-- The sequence of committed `lastProcessedIndex` values over a run, for a
given arrival order of worker results. -/
def progressTrace (st : ProgressState) : List WResult → List Nat
  | [] => []
  | r :: rs =>
    (handleWorkerResultProgress st r).lastProcessedIndex ::
      progressTrace (handleWorkerResultProgress st r) rs

/-- The parse outcome of the block-explorer response body. -/
inductive JsonBody where
  | malformed
  | parsed (chainStats : Option (Nat × Nat))
  deriving DecidableEq, Repr

/-- The outcome of the HTTP fetch in `checkBtcBalance`. -/
inductive FetchResult where
  | netError
  | response (ok : Bool) (body : JsonBody)
  deriving DecidableEq, Repr

/-- `checkBtcBalance` (`src/query.ts` lines 81-91).  The code has no
try/catch: a failed fetch or a body that fails to parse as JSON rejects the
promise, embedded as `Except.error`.  A non-OK response or a missing
`chain_stats` field returns `0`; otherwise `funded_txo_sum - spent_txo_sum`. -/
def checkBtcBalance : FetchResult → Except Unit Int
  | .netError => .error ()
  | .response ok body =>
    if !ok then .ok 0
    else
      match body with
      | .malformed => .error ()
      | .parsed none => .ok 0
      | .parsed (some (funded, spent)) => .ok ((funded : Int) - (spent : Int))

/-- `checkEthBalance` (`src/query.ts` lines 64-75): the RPC call outcome is
wrapped in try/catch, every failure becoming `0`. -/
def checkEthBalance : Except Unit Int → Int
  | .ok b => b
  | .error _ => 0

/-- Failure mode of address derivation: a BIP-39 checksum failure, or any
other (fatal, per the spec) failure of a cryptographic primitive or of
Bitcoin key/address construction (`getBtcWalletAddress`). -/
inductive DeriveError where
  | invalidMnemonic
  | fatal (msg : String)
  deriving DecidableEq, Repr

/-- `createPossibleAddressesAndCombinations` (`src/create.ts` lines 178-213),
with address derivation abstracted as `derive`.  The loop body wraps each
derivation in `try { ... } catch { continue; }`: every failure, whatever it
is, skips the combination. -/
def createPossibleAddressesAndCombinations {α : Type} (derive : String → Except DeriveError α)
    (pwc : List Slot) : List (List String) → List α × List (List String)
  | [] => ([], [])
  | combo :: rest =>
    let r := createPossibleAddressesAndCombinations derive pwc rest
    match derive (getFullMnemonicFromCandidates pwc combo) with
    | .ok a => (a :: r.1, combo :: r.2)
    | .error _ => r

/-- A derived address pair, as in `src/recover.ts` / `src/types.ts`. -/
structure AddrPair where
  ethereum : String
  bitcoin : String
  deriving DecidableEq, Repr

/-- The match predicate of `recover`'s `findIndex` (`src/recover.ts` lines
50-58): without a chain both addresses are compared, with chain `bitcoin`
the Bitcoin address, otherwise the Ethereum address. -/
def addrMatches (chain : Option String) (publicKey : String) (a : AddrPair) : Bool :=
  match chain with
  | none => a.bitcoin == publicKey || a.ethereum == publicKey
  | some c => if c == "bitcoin" then a.bitcoin == publicKey else a.ethereum == publicKey

/-- The accumulation loop of `queryAddressBalances` (`src/query.ts` lines
22-57), with the per-address network query abstracted as `bal`: addresses
with positive balance are collected together with their balances and
combinations, in order. -/
def queryAccum (bal : AddrPair → Nat) :
    List (AddrPair × List String) → List Nat × List AddrPair × List (List String)
  | [] => ([], [], [])
  | (a, cb) :: rest =>
    let r := queryAccum bal rest
    if 0 < bal a then (bal a :: r.1, a :: r.2.1, cb :: r.2.2) else r

/-- `queryAddressBalances` over paired address/combination lists. -/
def queryAddressBalances (bal : AddrPair → Nat) (addrs : List AddrPair)
    (combos : List (List String)) : List Nat × List AddrPair × List (List String) :=
  queryAccum bal (addrs.zip combos)

/-- The decision structure of `recover` (`src/recover.ts` lines 48-107) after
address generation: a supplied public key (JavaScript truthiness: `""` counts
as absent) that matches some address narrows the result to that single pair;
otherwise, with `queryBalances` set, a non-empty loaded-wallet list is
returned; otherwise the full accumulated lists are returned. -/
def recover (publicKey : Option String) (queryBalances : Bool) (chain : Option String)
    (bal : AddrPair → Nat) (possibleAddresses : List AddrPair)
    (possibleCombinations : List (List String)) : List AddrPair × List (List String) :=
  let fallbackQuery :=
    if queryBalances then
      let q := queryAddressBalances bal possibleAddresses possibleCombinations
      if q.2.1.isEmpty then (possibleAddresses, possibleCombinations) else (q.2.1, q.2.2)
    else (possibleAddresses, possibleCombinations)
  match publicKey with
  | some k =>
    if k = "" then fallbackQuery
    else
      match possibleAddresses.findIdx? (addrMatches chain k) with
      | some i =>
        ([possibleAddresses.getD i ⟨"", ""⟩], [possibleCombinations.getD i []])
      | none => fallbackQuery
  | none => fallbackQuery


/-- The number of fully missing (`undefined`) slots, `numberMissing` in
`getUpperBound`. -/
def unknownCount (pwc : List Slot) : Nat :=
  (pwc.filter fun s => match s with | .unknown => true | _ => false).length

/-- The prefix-candidate arrays, `partials` in `getUpperBound`. -/
def prefixLists (pwc : List Slot) : List (List String) :=
  pwc.filterMap fun s => match s with | .cands ws => some ws | _ => none

/-- The number of fixed slots. -/
def fixedCount (pwc : List Slot) : Nat :=
  (fixedWords pwc).length

/-- The per-depth admission predicate of `permutationsGenerator` in
non-repeating mode, made explicit: a tuple suffix `s` fills the remaining
candidate lists `cls` when each word is drawn from its slot's effective
candidate list (the stored array, or the wordlist for `undefined`) and, at
each depth, the chosen word is NOT caught by the substring pruning test
`testMnemonic.includes(word)` on the phrase assembled so far. -/
def admissible (wordList : List String) (pwc : List Slot) :
    List (Option (List String)) → List String → List String → Bool
  | [], _, [] => true
  | [], _, _ :: _ => false
  | _ :: _, _, [] => false
  | cl :: rest, cur, w :: s =>
    (cl.getD wordList).contains w
      && !strIncludes (getPartialMnemonicWithMissingWords pwc cur cur.length) w
      && admissible wordList pwc rest (cur ++ [w]) s

/-! ### Shared helper lemmas -/

theorem progressTrace_eq_map (st : ProgressState) (rs : List WResult) :
    progressTrace st rs = rs.map WResult.endIndex := by
  induction rs generalizing st with
  | nil => rfl
  | cons r rs ih =>
    simp [progressTrace, handleWorkerResultProgress, updateProgress, ih]

theorem findIdx?_none_of_all_false {α : Type} (p : α → Bool) (l : List α)
    (h : ∀ a ∈ l, p a = false) : ∀ i, List.findIdx? p l i = none := by
  induction l with
  | nil => intro i; rfl
  | cons a l ih =>
    intro i
    have ha := h a (List.mem_cons_self a l)
    simp only [List.findIdx?, ha, Bool.false_eq_true, if_false]
    exact ih (fun b hb => h b (List.mem_cons_of_mem a hb)) (i + 1)

theorem queryAccum_all_zero (bal : AddrPair → Nat) (l : List (AddrPair × List String))
    (h : ∀ p ∈ l, bal p.1 = 0) : queryAccum bal l = ([], [], []) := by
  induction l with
  | nil => rfl
  | cons p l ih =>
    have hp := h p (List.mem_cons_self p l)
    cases p with
    | mk a cb =>
      simp only [queryAccum, ih (fun q hq => h q (List.mem_cons_of_mem _ hq))]
      simp [hp]

/-! ### Claim C4: coordinator progress commits -/

/-- Claim C4 counterexample: when a later-dispatched chunk (end index 2000)
completes before an earlier one (end index 1000), the committed
last-processed-index sequence is 2000 followed by 1000 — it decreases, so
the committed sequence is not non-decreasing under out-of-order arrival. -/
theorem c4_counterexample :
    ¬ List.Chain' (· ≤ ·)
      (progressTrace ⟨0, 0⟩
        [⟨WResultType.chunkComplete, 2000⟩, ⟨WResultType.chunkComplete, 1000⟩]) := by
  rw [show progressTrace ⟨0, 0⟩
      [⟨WResultType.chunkComplete, 2000⟩, ⟨WResultType.chunkComplete, 1000⟩]
      = [2000, 1000] from rfl]
  simp [List.chain'_cons]

/-- Claim C4 (amended): `handleWorkerResult` commits each arriving chunk's
end index unconditionally (there is no out-of-order set), so the committed
sequence equals the arrival-order end indices; it is non-decreasing exactly
when results arrive in dispatch (end-index) order. -/
theorem c4_progress_trace (st : ProgressState) (rs : List WResult)
    (h : List.Chain' (· ≤ ·) (rs.map WResult.endIndex)) :
    progressTrace st rs = rs.map WResult.endIndex ∧
      List.Chain' (· ≤ ·) (progressTrace st rs) := by
  refine ⟨progressTrace_eq_map st rs, ?_⟩
  rw [progressTrace_eq_map]
  exact h

theorem c4_progress_trace_witness :
    progressTrace ⟨0, 0⟩ [⟨WResultType.chunkComplete, 1000⟩, ⟨WResultType.chunkComplete, 2000⟩]
        = List.map WResult.endIndex
            [⟨WResultType.chunkComplete, 1000⟩, ⟨WResultType.chunkComplete, 2000⟩] ∧
      List.Chain' (· ≤ ·)
        (progressTrace ⟨0, 0⟩
          [⟨WResultType.chunkComplete, 1000⟩, ⟨WResultType.chunkComplete, 2000⟩]) :=
  c4_progress_trace _ _ (by norm_num [List.chain'_cons])

/-! ### Claim C5: resolver behavior on zero-match tokens -/

/-- Claim C5 counterexample: the token "zzz" is non-empty, is not a wordlist
word, and no wordlist word starts with it, yet `createPartialWithCandidates`
resolves the slot to `Unknown` rather than failing with an error. -/
theorem c5_counterexample :
    ("zzz" : String) ≠ "" ∧
      (["abandon", "ability"] : List String).contains "zzz" = false ∧
      (["abandon", "ability"] : List String).filter (fun w => strStartsWith w "zzz") = [] ∧
      createPartialWithCandidates ["abandon", "ability"] [some "zzz"] = [Slot.unknown] := by
  decide

/-- Claim C5 (amended): for a non-empty token `s` that is not a wordlist word
and has zero wordlist prefix matches, the Candidate Resolver does not fail:
it resolves the slot to `Unknown`, treating it like a fully missing word. -/
theorem c5_zero_match_resolves_unknown (wordList : List String) (s : String)
    (_hs : s ≠ "") (hmem : wordList.contains s = false)
    (hpre : wordList.filter (fun w => strStartsWith w s) = []) :
    resolveToken wordList (some s) = Slot.unknown := by
  simp only [resolveToken, hmem, hpre]
  rfl

theorem c5_zero_match_witness :
    resolveToken ["abandon", "ability"] (some "zzz") = Slot.unknown :=
  c5_zero_match_resolves_unknown _ _ (by decide) (by decide) (by decide)

/-! ### Claim C7: balance query error handling -/

/-- Claim C7 counterexample: a failed HTTP request, or an OK response whose
body is not valid JSON, makes `checkBtcBalance` propagate an error rather
than return 0. -/
theorem c7_counterexample :
    checkBtcBalance FetchResult.netError = Except.error () ∧
      checkBtcBalance (FetchResult.response true JsonBody.malformed) = Except.error () :=
  ⟨rfl, rfl⟩

/-- Claim C7 (amended): the EVM path returns a nonnegative balance and maps
every failure to 0; the Bitcoin path returns 0 only for a non-200 response or
a missing `chain_stats` field, returns the nonnegative difference for a
well-formed response, and propagates an error when the HTTP request itself
fails or the response body is not valid JSON. -/
theorem c7_balance_error_handling (body : JsonBody) (b funded spent : Nat)
    (hfs : spent ≤ funded) :
    checkEthBalance (Except.error ()) = 0 ∧
      0 ≤ checkEthBalance (Except.ok (b : Int)) ∧
      checkBtcBalance (FetchResult.response false body) = Except.ok 0 ∧
      checkBtcBalance (FetchResult.response true (JsonBody.parsed none)) = Except.ok 0 ∧
      (checkBtcBalance (FetchResult.response true (JsonBody.parsed (some (funded, spent))))
          = Except.ok ((funded : Int) - spent) ∧
        0 ≤ (funded : Int) - spent) ∧
      checkBtcBalance FetchResult.netError = Except.error () ∧
      checkBtcBalance (FetchResult.response true JsonBody.malformed) = Except.error () := by
  refine ⟨rfl, by simp [checkEthBalance], rfl, rfl, ⟨rfl, ?_⟩,
    rfl, rfl⟩
  omega

theorem c7_balance_witness :
    checkEthBalance (Except.error ()) = 0 ∧
      0 ≤ checkEthBalance (Except.ok ((5 : Nat) : Int)) ∧
      checkBtcBalance (FetchResult.response false JsonBody.malformed) = Except.ok 0 ∧
      checkBtcBalance (FetchResult.response true (JsonBody.parsed none)) = Except.ok 0 ∧
      (checkBtcBalance (FetchResult.response true (JsonBody.parsed (some (7, 3))))
          = Except.ok (((7 : Nat) : Int) - (3 : Nat)) ∧
        0 ≤ ((7 : Nat) : Int) - (3 : Nat)) ∧
      checkBtcBalance FetchResult.netError = Except.error () ∧
      checkBtcBalance (FetchResult.response true JsonBody.malformed) = Except.error () :=
  c7_balance_error_handling JsonBody.malformed 5 7 3 (by decide)

/-! ### Claim C8: derivation failure handling -/

/-- Claim C8 counterexample: a fatal (non-checksum) derivation failure is
silently skipped by `createPossibleAddressesAndCombinations` — the function
returns normally with empty result lists instead of propagating the error
and terminating the run. -/
theorem c8_counterexample :
    createPossibleAddressesAndCombinations
        (fun _ => (Except.error (DeriveError.fatal "boom") : Except DeriveError Unit))
        [Slot.unknown] [["abandon"]] = ([], []) ∧
      (fun _ => (Except.error (DeriveError.fatal "boom") : Except DeriveError Unit))
          (getFullMnemonicFromCandidates [Slot.unknown] ["abandon"])
        = Except.error (DeriveError.fatal "boom") :=
  ⟨rfl, rfl⟩

/-- Claim C8 (amended): the `try { ... } catch { continue; }` in the
derivation loop skips every failing combination, whether the failure is a
checksum mismatch or a fatal cryptographic/Bitcoin-construction error: the
results are exactly the combinations whose derivation succeeds, paired with
their addresses, and no failure ever propagates. -/
theorem c8_catch_all_skips (α : Type) (derive : String → Except DeriveError α)
    (pwc : List Slot) (combos : List (List String)) :
    createPossibleAddressesAndCombinations derive pwc combos
      = (combos.filterMap fun cb => (derive (getFullMnemonicFromCandidates pwc cb)).toOption,
          combos.filter fun cb =>
            (derive (getFullMnemonicFromCandidates pwc cb)).toOption.isSome) := by
  induction combos with
  | nil => rfl
  | cons cb rest ih =>
    simp only [createPossibleAddressesAndCombinations, List.filterMap_cons, List.filter_cons, ih]
    cases h : derive (getFullMnemonicFromCandidates pwc cb) with
    | error e => simp [Except.toOption, h]
    | ok a => simp [Except.toOption, h]

/-! ### Claim C10: recover fall-through behavior -/

/-- Claim C10: when the supplied public key matches no derived address,
`recover` does not fail or return empty: it falls through and (when no
queried balance is positive either) returns the full accumulated address and
combination lists; only an actual match narrows the result to the single
winning (address, combination) pair. -/
theorem c10_recover_fallthrough (pk : String) (chain : Option String) (qb : Bool)
    (bal : AddrPair → Nat) (addrs : List AddrPair) (combos : List (List String))
    (hpk : pk ≠ "") :
    ((∀ a ∈ addrs, addrMatches chain pk a = false) → (∀ a ∈ addrs, bal a = 0) →
        recover (some pk) qb chain bal addrs combos = (addrs, combos)) ∧
      (∀ i, List.findIdx? (addrMatches chain pk) addrs = some i →
        recover (some pk) qb chain bal addrs combos
          = ([addrs.getD i ⟨"", ""⟩], [combos.getD i []])) := by
  constructor
  · intro hmatch hbal
    have hfind := findIdx?_none_of_all_false (addrMatches chain pk) addrs hmatch 0
    have hq : queryAccum bal (addrs.zip combos) = ([], [], []) :=
      queryAccum_all_zero bal _ (fun p hp => hbal p.1 (List.of_mem_zip hp).1)
    simp only [recover, queryAddressBalances, hq, hfind, if_neg hpk]
    cases qb <;> simp
  · intro i hfind
    simp only [recover, hfind, if_neg hpk]

theorem c10_recover_witness :
    ((∀ a ∈ [AddrPair.mk "e1" "b1"], addrMatches none "k" a = false) →
        (∀ a ∈ [AddrPair.mk "e1" "b1"], (fun (_ : AddrPair) => 0) a = 0) →
        recover (some "k") true none (fun _ => 0) [AddrPair.mk "e1" "b1"] [["w"]]
          = ([AddrPair.mk "e1" "b1"], [["w"]])) ∧
      (∀ i, List.findIdx? (addrMatches none "k") [AddrPair.mk "e1" "b1"] = some i →
        recover (some "k") true none (fun _ => 0) [AddrPair.mk "e1" "b1"] [["w"]]
          = ([[AddrPair.mk "e1" "b1"].getD i ⟨"", ""⟩], [[["w"]].getD i []])) :=
  c10_recover_fallthrough "k" none true (fun _ => 0) [AddrPair.mk "e1" "b1"] [["w"]]
    (by decide)

/-! ### Claim C3: the non-repeating upper bound -/

theorem foldl_mul_length (l : List (List String)) (n : Nat) :
    l.foldl (fun acc cs => acc * cs.length) n = n * (l.map List.length).prod := by
  induction l generalizing n with
  | nil => simp
  | cons cs l ih =>
    simp only [List.foldl_cons, List.map_cons, List.prod_cons, ih]
    ring

theorem foldl_mul_range (f : Nat → Int) (u : Nat) :
    (List.range u).foldl (fun acc i => acc * f i) 1 = ∏ j ∈ Finset.range u, f j := by
  induction u with
  | zero => simp
  | succ u ih => simp [List.range_succ, List.foldl_append, ih, Finset.prod_range_succ]

theorem slot_count_split (pwc : List Slot) :
    pwc.length = unknownCount pwc + ((prefixLists pwc).length + fixedCount pwc) := by
  induction pwc with
  | nil => rfl
  | cons s rest ih =>
    cases s <;>
      simp [unknownCount, prefixLists, fixedCount, fixedWords, List.filter_cons,
        List.filterMap_cons] at ih ⊢ <;>
      omega

/-- Claim C3 counterexample: for one fixed word, one prefix slot with two
candidates and one missing word, `getUpperBound` in non-repeating mode
returns `2 * (2048 - 2) = 4092`, not the claimed
`2 * (2048 - F - 0) = 2 * 2047 = 4094` with `F` the fixed-slot count only. -/
theorem c3_counterexample :
    getUpperBound [Slot.fixed "action", Slot.cands ["a", "b"], Slot.unknown] false = 4092 ∧
      (4092 : Int) ≠ 2 * ((2048 : Int) - 1 - 0) := by
  exact ⟨rfl, by decide⟩

/-- Claim C3 (amended): with repeating words disallowed, `getUpperBound`
returns `(∏ p) · ∏_{j<U} (2048 − |P| − F − j)`: the pool is reduced by the
count of fixed slots *and* the count of prefix-candidate slots (each will
consume one word), while the prefix candidate-list sizes themselves are not
subtracted. -/
theorem c3_upper_bound_subtracts_prefix_slots (pwc : List Slot) :
    getUpperBound pwc false
      = (((prefixLists pwc).map List.length).prod : Int)
        * ∏ j ∈ Finset.range (unknownCount pwc),
            ((2048 : Int) - (prefixLists pwc).length - fixedCount pwc - (j : Int)) := by
  have hsplit := slot_count_split pwc
  have hlow : (2048 : Int) - ((pwc.length : Int) - (unknownCount pwc : Int))
      = (2048 : Int) - (prefixLists pwc).length - fixedCount pwc := by
    rw [hsplit]
    push_cast
    ring
  simp only [getUpperBound, Bool.false_eq_true, if_false, unknownCount, prefixLists,
    fixedCount, fixedWords] at hlow ⊢
  rw [foldl_mul_length, one_mul, foldl_mul_range]
  rw [show ((pwc.filter fun s => match s with | .unknown => true | _ => false).length : Int)
      = ((pwc.filter fun s => match s with | .unknown => true | _ => false).length : Nat)
    from rfl] at hlow
  simp only [hlow]

/-! ### Claim C6: chunked delivery -/

theorem chunkEmit_spec (c : Nat) (hc : 0 < c) :
    ∀ (ts : List (List String)) (buf : List (List String)), buf.length < c →
      (chunkEmit c ts buf).flatten = buf ++ ts ∧
        (∀ ch ∈ chunkEmit c ts buf, ch ≠ [] ∧ ch.length ≤ c) ∧
        (∀ i, i + 1 < (chunkEmit c ts buf).length →
          ((chunkEmit c ts buf).getD i []).length = c) := by
  intro ts
  induction ts with
  | nil =>
    intro buf hbuf
    by_cases hb : buf = []
    · subst hb
      simp [chunkEmit]
    · rw [show chunkEmit c [] buf = [buf] from by
        simp [chunkEmit, List.isEmpty_iff, hb]]
      refine ⟨by simp, ?_, ?_⟩
      · intro ch hch
        rw [List.mem_singleton] at hch
        subst hch
        exact ⟨hb, Nat.le_of_lt hbuf⟩
      · intro i hi
        simp at hi
  | cons t ts ih =>
    intro buf hbuf
    by_cases hfull : c ≤ (buf ++ [t]).length
    · have hlen : (buf ++ [t]).length = c := by
        simp only [List.length_append, List.length_cons, List.length_nil] at hfull ⊢
        omega
      have ih0 := ih [] (by simpa using hc)
      rw [show chunkEmit c (t :: ts) buf = (buf ++ [t]) :: chunkEmit c ts [] from by
        simp only [chunkEmit]
        rw [if_pos hfull]]
      refine ⟨?_, ?_, ?_⟩
      · simp [ih0.1]
      · intro ch hch
        rcases List.mem_cons.mp hch with rfl | h
        · exact ⟨by simp, Nat.le_of_eq hlen⟩
        · exact ih0.2.1 ch h
      · intro i hi
        cases i with
        | zero => simpa using hlen
        | succ i =>
          simp only [List.getD_cons_succ]
          apply ih0.2.2
          simp only [List.length_cons] at hi
          omega
    · have hlt : (buf ++ [t]).length < c := Nat.lt_of_not_le hfull
      rw [show chunkEmit c (t :: ts) buf = chunkEmit c ts (buf ++ [t]) from by
        simp only [chunkEmit]
        rw [if_neg hfull]]
      have ih2 := ih (buf ++ [t]) hlt
      refine ⟨?_, ih2.2.1, ih2.2.2⟩
      rw [ih2.1]
      simp

/-- Claim C6 counterexample: the generator's first emission is the handshake
chunk `[[]]` (the `yield [[]]` used to receive the chunk size), whose sole
element — the empty tuple — is not a tuple of the enumeration, contradicting
"no sentinel or placeholder emissions". -/
theorem c6_counterexample :
    (createCombinationsGenerator ["x"] [Slot.cands ["a", "b"]] true 1).headD [] = [[]] ∧
      ([] : List String) ∉ genTuples ["x"] [Slot.cands ["a", "b"]] true := by
  decide

/-- Claim C6 (amended): apart from the initial handshake emission `[[]]`
(consumed to receive the chunk size), every chunk the enumerator emits under
the constant-chunk-size protocol is strictly non-empty, has exactly the
configured number of tuples except possibly a final short chunk, and the
chunks concatenate to exactly the tuple stream of the enumeration. -/
theorem c6_chunked_delivery (wordList : List String) (pwc : List Slot) (repeating : Bool)
    (chunkSize : Nat) (hc : 0 < chunkSize) :
    ((createCombinationsGenerator wordList pwc repeating chunkSize).tail.flatten
        = genTuples wordList pwc repeating) ∧
      (∀ ch ∈ (createCombinationsGenerator wordList pwc repeating chunkSize).tail,
        ch ≠ [] ∧ ch.length ≤ chunkSize) ∧
      (∀ i, i + 1 < (createCombinationsGenerator wordList pwc repeating chunkSize).tail.length →
        ((createCombinationsGenerator wordList pwc repeating chunkSize).tail.getD i []).length
          = chunkSize) := by
  have h := chunkEmit_spec chunkSize hc (genTuples wordList pwc repeating) [] (by simpa using hc)
  simp only [createCombinationsGenerator, List.tail_cons]
  exact ⟨by simpa using h.1, h.2.1, h.2.2⟩

theorem c6_chunked_delivery_witness :
    ((createCombinationsGenerator ["x"] [Slot.cands ["a", "b", "d"]] true 2).tail.flatten
        = genTuples ["x"] [Slot.cands ["a", "b", "d"]] true) ∧
      (∀ ch ∈ (createCombinationsGenerator ["x"] [Slot.cands ["a", "b", "d"]] true 2).tail,
        ch ≠ [] ∧ ch.length ≤ 2) ∧
      (∀ i, i + 1 < (createCombinationsGenerator ["x"] [Slot.cands ["a", "b", "d"]] true 2).tail.length →
        ((createCombinationsGenerator ["x"] [Slot.cands ["a", "b", "d"]] true 2).tail.getD i []).length
          = 2) :=
  c6_chunked_delivery ["x"] [Slot.cands ["a", "b", "d"]] true 2 (by decide)

/-! ### Claim C2: the without-repetition filter -/

theorem leadsList_append_right (post : List Char) :
    ∀ (n h : List Char), leadsList n h = true → leadsList n (h ++ post) = true := by
  intro n
  induction n with
  | nil => intro h _; rfl
  | cons a n' ih =>
    intro h hl
    cases h with
    | nil => simp [leadsList] at hl
    | cons b h' =>
      simp only [leadsList, Bool.and_eq_true] at hl
      simp only [List.cons_append, leadsList, Bool.and_eq_true]
      exact ⟨hl.1, ih h' hl.2⟩

theorem leadsList_self_append (n t : List Char) : leadsList n (n ++ t) = true := by
  induction n with
  | nil => rfl
  | cons a n' ih => simp [leadsList, ih]

theorem containsSub_of_leads (n h : List Char) (hl : leadsList n h = true) :
    containsSub n h = true := by
  cases h with
  | nil => simpa [containsSub] using hl
  | cons ch t => simp [containsSub, hl]

theorem containsSub_append_left (pre : List Char) (n h : List Char)
    (hc : containsSub n h = true) : containsSub n (pre ++ h) = true := by
  induction pre with
  | nil => simpa using hc
  | cons p pre' ih => simp [containsSub, ih]

theorem mem_joinSp_substr (x : String) :
    ∀ ws : List String, x ∈ ws → strIncludes (joinSp ws) x = true := by
  intro ws
  induction ws with
  | nil => intro h; cases h
  | cons w rest ih =>
    intro hmem
    rcases List.mem_cons.mp hmem with rfl | h
    · cases rest with
      | nil =>
        simp only [joinSp, strIncludes]
        exact containsSub_of_leads _ _ (by simpa using leadsList_self_append x.data [])
      | cons r rest' =>
        simp only [joinSp, strIncludes, String.data_append]
        rw [List.append_assoc]
        exact containsSub_of_leads _ _ (leadsList_self_append _ _)
    · cases rest with
      | nil => cases h
      | cons r rest' =>
        have hr := ih h
        simp only [strIncludes] at hr
        simp only [joinSp, strIncludes, String.data_append]
        rw [List.append_assoc]
        exact containsSub_append_left _ _ _ (containsSub_append_left _ _ _ hr)

theorem fixed_mem_fillWords (x : String) :
    ∀ (pwc : List Slot) (ms : List String) (n : Nat),
      x ∈ fixedWords pwc → x ∈ fillWords pwc ms n := by
  intro pwc
  induction pwc with
  | nil => intro ms n h; simp [fixedWords] at h
  | cons s rest ih =>
    intro ms n h
    cases s with
    | fixed w =>
      have h' : x = w ∨ x ∈ fixedWords rest := by
        simpa [fixedWords, List.filterMap_cons] using h
      rcases h' with rfl | h'
      · simp only [fillWords]
        exact List.mem_cons_self _ _
      · simp only [fillWords]
        exact List.mem_cons_of_mem _ (ih ms n h')
    | cands ws =>
      have h' : x ∈ fixedWords rest := by
        simpa [fixedWords, List.filterMap_cons] using h
      cases ms with
      | nil =>
        cases n with
        | zero => exact List.mem_cons_of_mem _ (ih [] 0 h')
        | succ n => exact List.mem_cons_of_mem _ (ih [] n h')
      | cons m ms =>
        cases n with
        | zero => exact List.mem_cons_of_mem _ (ih (m :: ms) 0 h')
        | succ n => exact List.mem_cons_of_mem _ (ih ms n h')
    | unknown =>
      have h' : x ∈ fixedWords rest := by
        simpa [fixedWords, List.filterMap_cons] using h
      cases ms with
      | nil =>
        cases n with
        | zero => exact List.mem_cons_of_mem _ (ih [] 0 h')
        | succ n => exact List.mem_cons_of_mem _ (ih [] n h')
      | cons m ms =>
        cases n with
        | zero => exact List.mem_cons_of_mem _ (ih (m :: ms) 0 h')
        | succ n => exact List.mem_cons_of_mem _ (ih ms n h')

theorem mem_fillWords_of_mem (x : String) :
    ∀ (pwc : List Slot) (ms : List String),
      ms.length ≤ (getMissingPositionsAndCandidates pwc).2.length →
      x ∈ ms → x ∈ fillWords pwc ms ms.length := by
  intro pwc
  induction pwc with
  | nil =>
    intro ms hlen hx
    simp only [getMissingPositionsAndCandidates, List.filterMap_nil, List.length_nil,
      Nat.le_zero, List.length_eq_zero] at hlen
    subst hlen
    cases hx
  | cons s rest ih =>
    intro ms hlen hx
    cases s with
    | fixed w =>
      have hlen' : ms.length ≤ (getMissingPositionsAndCandidates rest).2.length := by
        simpa [getMissingPositionsAndCandidates, List.filterMap_cons] using hlen
      simp only [fillWords]
      exact List.mem_cons_of_mem _ (ih ms hlen' hx)
    | cands ws =>
      cases ms with
      | nil => cases hx
      | cons m ms' =>
        have hlen' : ms'.length ≤ (getMissingPositionsAndCandidates rest).2.length := by
          simp only [getMissingPositionsAndCandidates, List.filterMap_cons] at hlen
          simpa using hlen
        rcases List.mem_cons.mp hx with rfl | hx'
        · exact List.mem_cons_self _ _
        · exact List.mem_cons_of_mem _ (ih ms' hlen' hx')
    | unknown =>
      cases ms with
      | nil => cases hx
      | cons m ms' =>
        have hlen' : ms'.length ≤ (getMissingPositionsAndCandidates rest).2.length := by
          simp only [getMissingPositionsAndCandidates, List.filterMap_cons] at hlen
          simpa using hlen
        rcases List.mem_cons.mp hx with rfl | hx'
        · exact List.mem_cons_self _ _
        · exact List.mem_cons_of_mem _ (ih ms' hlen' hx')

theorem permRec_sound (wordList : List String) (pwc : List Slot) :
    ∀ (cls : List (Option (List String))) (cur : List String) (t : List String),
      cur.length + cls.length ≤ (getMissingPositionsAndCandidates pwc).2.length →
      cur.Nodup → (∀ w ∈ cur, w ∉ fixedWords pwc) →
      t ∈ permRec wordList pwc false cls cur →
      t.Nodup ∧ ∀ w ∈ t, w ∉ fixedWords pwc := by
  intro cls
  induction cls with
  | nil =>
    intro cur t hlen hnd hfix ht
    simp only [permRec, List.mem_singleton] at ht
    subst ht
    exact ⟨hnd, hfix⟩
  | cons cl rest ih =>
    intro cur t hlen hnd hfix ht
    simp only [permRec, List.mem_flatMap, Bool.not_false, Bool.true_and] at ht
    obtain ⟨w, _hw, hmem⟩ := ht
    by_cases hprune : strIncludes (getPartialMnemonicWithMissingWords pwc cur cur.length) w = true
    · rw [if_pos hprune] at hmem
      cases hmem
    · rw [if_neg hprune] at hmem
      have hcur : cur.length ≤ (getMissingPositionsAndCandidates pwc).2.length := by
        simp only [List.length_cons] at hlen
        omega
      have hwcur : w ∉ cur := fun hc =>
        hprune (mem_joinSp_substr w _ (mem_fillWords_of_mem w pwc cur hcur hc))
      have hwfix : w ∉ fixedWords pwc := fun hf =>
        hprune (mem_joinSp_substr w _ (fixed_mem_fillWords w pwc cur cur.length hf))
      apply ih (cur ++ [w]) t
      · simp only [List.length_append, List.length_cons, List.length_nil] at hlen ⊢
        omega
      · simp [List.nodup_append, hnd, hwcur]
      · intro x hxc
        rcases List.mem_append.mp hxc with hx | hx
        · exact hfix x hx
        · rw [List.mem_singleton] at hx
          subst hx
          exact hwfix
      · exact hmem

/-- Claim C2 counterexample: with a fixed word "action" and prefix candidates
for "act", the tuple ["act"] belongs to the cartesian product and, combined
with the fixed slots, repeats no word ("act" is not "action"); yet it is not
emitted, because the pruning test is a *substring* check on the space-joined
phrase and "act" occurs inside "action". -/
theorem c2_counterexample :
    (fillFull [Slot.fixed "action",
        Slot.cands ["act", "action", "actor", "actress", "actual"]] ["act"]).Nodup ∧
      ["act"] ∈ prodLists (effLists ["x"]
        [Slot.fixed "action", Slot.cands ["act", "action", "actor", "actress", "actual"]]) ∧
      ["act"] ∉ genTuples ["x"]
        [Slot.fixed "action", Slot.cands ["act", "action", "actor", "actress", "actual"]]
        false := by
  decide

theorem permRec_mem_iff (wordList : List String) (pwc : List Slot) :
    ∀ (cls : List (Option (List String))) (cur t : List String),
      t ∈ permRec wordList pwc false cls cur ↔
        ∃ s, t = cur ++ s ∧ admissible wordList pwc cls cur s = true := by
  intro cls
  induction cls with
  | nil =>
    intro cur t
    simp only [permRec, List.mem_singleton]
    constructor
    · rintro rfl
      exact ⟨[], by simp, rfl⟩
    · rintro ⟨s, rfl, hs⟩
      cases s with
      | nil => simp
      | cons w s' => simp [admissible] at hs
  | cons cl rest ih =>
    intro cur t
    simp only [permRec, List.mem_flatMap, Bool.not_false, Bool.true_and]
    constructor
    · rintro ⟨w, hw, hmem⟩
      by_cases hprune :
          strIncludes (getPartialMnemonicWithMissingWords pwc cur cur.length) w = true
      · rw [if_pos hprune] at hmem
        cases hmem
      · rw [if_neg hprune] at hmem
        obtain ⟨s', rfl, hs'⟩ := (ih (cur ++ [w]) _).mp hmem
        refine ⟨w :: s', by simp, ?_⟩
        simp only [admissible, Bool.and_eq_true]
        refine ⟨⟨by simpa using hw, ?_⟩, hs'⟩
        simpa using hprune
    · rintro ⟨s, rfl, hs⟩
      cases s with
      | nil => simp [admissible] at hs
      | cons w s' =>
        simp only [admissible, Bool.and_eq_true] at hs
        obtain ⟨⟨hcont, hnot⟩, hadm⟩ := hs
        refine ⟨w, by simpa using hcont, ?_⟩
        rw [if_neg (by simp only [Bool.not_eq_true'] at hnot; simp [hnot])]
        exact (ih (cur ++ [w]) _).mpr ⟨s', by simp, hadm⟩

/-- Claim C2 (amended): the pruning of the non-repeating generator is exactly
the substring test — a tuple is emitted iff each of its words comes from its
slot's candidate list and, at its depth, is not a substring of the
space-joined partial phrase (`testMnemonic.includes(word)`) — and this
pruning is sound for the claim's uniqueness property: every emitted tuple
has pairwise-distinct words, none equal to a Fixed word.  The claim's
converse fails (see the counterexample): a repetition-free tuple of the
product is pruned whenever a candidate is a proper substring of another
word of the phrase. -/
theorem c2_pruning_characterization (wordList : List String) (pwc : List Slot) :
    (∀ t, t ∈ genTuples wordList pwc false ↔
        admissible wordList pwc (getMissingPositionsAndCandidates pwc).2 [] t = true) ∧
      (∀ t, t ∈ genTuples wordList pwc false →
        t.Nodup ∧ ∀ w ∈ t, w ∉ fixedWords pwc) := by
  constructor
  · intro t
    rw [genTuples, permRec_mem_iff wordList pwc (getMissingPositionsAndCandidates pwc).2 [] t]
    constructor
    · rintro ⟨s, rfl, hs⟩
      simpa using hs
    · intro h
      exact ⟨t, by simp, h⟩
  · intro t ht
    exact permRec_sound wordList pwc (getMissingPositionsAndCandidates pwc).2 [] t
      (by simp) List.nodup_nil (by simp) ht

theorem c2_pruning_witness :
    ((["actor"] : List String) ∈ genTuples ["x"]
        [Slot.fixed "action", Slot.cands ["act", "action", "actor", "actress", "actual"]]
        false ↔
      admissible ["x"]
          [Slot.fixed "action", Slot.cands ["act", "action", "actor", "actress", "actual"]]
          (getMissingPositionsAndCandidates
            [Slot.fixed "action",
              Slot.cands ["act", "action", "actor", "actress", "actual"]]).2 [] ["actor"]
        = true) ∧
      ((["actor"] : List String).Nodup ∧
        ∀ w ∈ (["actor"] : List String),
          w ∉ fixedWords [Slot.fixed "action",
            Slot.cands ["act", "action", "actor", "actress", "actual"]]) :=
  ⟨(c2_pruning_characterization ["x"]
      [Slot.fixed "action", Slot.cands ["act", "action", "actor", "actress", "actual"]]).1
      ["actor"],
    (c2_pruning_characterization ["x"]
      [Slot.fixed "action", Slot.cands ["act", "action", "actor", "actress", "actual"]]).2
      ["actor"] (by decide)⟩

/-! ### Claims C1 and C9: mixed-radix indexing -/

theorem flatMap_const_length {α β : Type} (f : α → List β) (L : Nat)
    (hf : ∀ a, (f a).length = L) : ∀ l : List α, (l.flatMap f).length = l.length * L := by
  intro l
  induction l with
  | nil => simp
  | cons a l ih =>
    simp only [List.flatMap_cons, List.length_append, List.length_cons, ih, hf a]
    ring

theorem prodLists_length : ∀ Ls : List (List String), (prodLists Ls).length = listProd Ls := by
  intro Ls
  induction Ls with
  | nil => rfl
  | cons cs r ih =>
    simp only [prodLists, listProd, List.map_cons, List.prod_cons]
    rw [flatMap_const_length _ (listProd r) (fun w => by simp [ih, listProd]) cs]
    simp [listProd]

theorem decodeMix_length : ∀ (Ls : List (List String)) (i : Nat),
    (decodeMix Ls i).length = Ls.length := by
  intro Ls
  induction Ls with
  | nil => intro i; rfl
  | cons cs r ih => intro i; simp [decodeMix, ih]

theorem permRec_repeat (wordList : List String) (pwc : List Slot) :
    ∀ (cls : List (Option (List String))) (cur : List String),
      permRec wordList pwc true cls cur
        = (prodLists (cls.map fun o => o.getD wordList)).map (cur ++ ·) := by
  intro cls
  induction cls with
  | nil =>
    intro cur
    simp [permRec, prodLists]
  | cons cl rest ih =>
    intro cur
    simp only [permRec, Bool.not_true, Bool.false_and, Bool.false_eq_true, if_false, ih,
      List.map_cons, prodLists, List.map_flatMap]
    congr 1
    funext w
    rw [List.map_map]
    congr 1
    funext t
    simp

theorem flatMap_const_getElem? {α β : Type} (f : α → List β) (L : Nat)
    (hf : ∀ a, (f a).length = L) :
    ∀ (l : List α) (i : Nat), i < l.length * L →
      ∃ a, l[i / L]? = some a ∧ (l.flatMap f)[i]? = (f a)[i % L]? := by
  intro l
  induction l with
  | nil => intro i hi; simp at hi
  | cons a l ih =>
    intro i hi
    have hL : 0 < L := by
      rcases Nat.eq_zero_or_pos L with h0 | h
      · subst h0; simp at hi
      · exact h
    by_cases hiL : i < L
    · refine ⟨a, ?_, ?_⟩
      · rw [Nat.div_eq_of_lt hiL]
        simp
      · rw [List.flatMap_cons, List.getElem?_append,
          if_pos (by rw [hf a]; exact hiL), Nat.mod_eq_of_lt hiL]
    · push_neg at hiL
      have hi' : i - L < l.length * L := by
        simp only [List.length_cons] at hi
        have hmul : (l.length + 1) * L = l.length * L + L := by ring
        omega
      obtain ⟨b, hb1, hb2⟩ := ih (i - L) hi'
      refine ⟨b, ?_, ?_⟩
      · have hdiv : i / L = (i - L) / L + 1 := by
          conv_lhs => rw [show i = (i - L) + L from (Nat.sub_add_cancel hiL).symm]
          rw [Nat.add_div_right _ hL]
        rw [hdiv]
        simpa using hb1
      · rw [List.flatMap_cons, List.getElem?_append, if_neg (by rw [hf a]; omega), hf a]
        have hmod : i % L = (i - L) % L := by
          conv_lhs => rw [show i = (i - L) + L from (Nat.sub_add_cancel hiL).symm]
          rw [Nat.add_mod_right]
        rw [hmod]
        exact hb2

theorem prodLists_getElem? :
    ∀ (Ls : List (List String)) (i : Nat), i < listProd Ls →
      (prodLists Ls)[i]? = some (decodeMix Ls i) := by
  intro Ls
  induction Ls with
  | nil =>
    intro i hi
    have : i = 0 := by
      simp only [listProd, List.map_nil, List.prod_nil] at hi
      omega
    subst this
    rfl
  | cons cs r ih =>
    intro i hi
    have hprod : i < cs.length * listProd r := by
      simpa [listProd] using hi
    have hpr : 0 < listProd r := by
      rcases Nat.eq_zero_or_pos (listProd r) with h0 | h
      · rw [h0] at hprod; simp at hprod
      · exact h
    obtain ⟨a, ha1, ha2⟩ :=
      flatMap_const_getElem? (fun w => (prodLists r).map (w :: ·)) (listProd r)
        (fun w => by simp [prodLists_length r]) cs i hprod
    rw [show prodLists (cs :: r) = cs.flatMap (fun w => (prodLists r).map (w :: ·)) from rfl,
      ha2, List.getElem?_map, ih (i % listProd r) (Nat.mod_lt _ hpr)]
    simp [decodeMix, ha1]

theorem listProd_effLists (wordList : List String) (pwc : List Slot)
    (hw : wordList.length = 2048) :
    listProd (effLists wordList pwc)
      = 2048 ^ unknownCount pwc * ((prefixLists pwc).map List.length).prod := by
  induction pwc with
  | nil => rfl
  | cons s rest ih =>
    cases s with
    | fixed w =>
      simpa [effLists, getMissingPositionsAndCandidates, List.filterMap_cons, unknownCount,
        prefixLists, List.filter_cons] using ih
    | cands ws =>
      simp [effLists, getMissingPositionsAndCandidates, unknownCount, prefixLists,
        listProd] at ih ⊢
      rw [ih]
      ring
    | unknown =>
      simp [effLists, getMissingPositionsAndCandidates, unknownCount, prefixLists,
        listProd] at ih ⊢
      rw [ih, hw, pow_succ]
      ring

theorem getUpperBound_repeat (wordList : List String) (pwc : List Slot)
    (hw : wordList.length = 2048) :
    getUpperBound pwc true = (listProd (effLists wordList pwc) : Int) := by
  rw [listProd_effLists wordList pwc hw]
  simp only [getUpperBound]
  rw [if_pos trivial, foldl_mul_length, one_mul]
  push_cast
  rfl

theorem gcaiGo_repeat (wordList : List String) :
    ∀ (cls : List (Option (List String))) (i : Nat),
      i < listProd (cls.map fun o => o.getD wordList) →
      gcaiGo wordList cls (listProd (cls.map fun o => o.getD wordList)) i
        = .ok ((decodeMix (cls.map fun o => o.getD wordList) i).map some) := by
  intro cls
  induction cls with
  | nil => intro i hi; rfl
  | cons cl rest ih =>
    intro i hi
    have hcons : listProd ((cl :: rest).map fun o => o.getD wordList)
        = (cl.getD wordList).length * listProd (rest.map fun o => o.getD wordList) := by
      simp [listProd]
    rw [hcons] at hi ⊢
    have heff : 0 < (cl.getD wordList).length := by
      rcases Nat.eq_zero_or_pos (cl.getD wordList).length with h0 | h
      · rw [h0] at hi; simp at hi
      · exact h
    have hpr : 0 < listProd (rest.map fun o => o.getD wordList) := by
      rcases Nat.eq_zero_or_pos (listProd (rest.map fun o => o.getD wordList)) with h0 | h
      · rw [h0] at hi; simp at hi
      · exact h
    have hafter : (cl.getD wordList).length * listProd (rest.map fun o => o.getD wordList)
        / (cl.getD wordList).length = listProd (rest.map fun o => o.getD wordList) :=
      Nat.mul_div_cancel_left _ heff
    have hdiv : i / listProd (rest.map fun o => o.getD wordList) < (cl.getD wordList).length :=
      (Nat.div_lt_iff_lt_mul hpr).mpr hi
    simp only [gcaiGo, hafter]
    rw [if_neg (by omega), if_neg (by omega)]
    rw [ih (i % listProd (rest.map fun o => o.getD wordList)) (Nat.mod_lt _ hpr)]
    simp only [List.map_cons, decodeMix, Option.getD_some, List.getElem?_eq_getElem hdiv]

theorem getCombinationAtIndex_repeat_eq (wordList : List String) (pwc : List Slot) (i : Nat)
    (hw : wordList.length = 2048)
    (hne : (getMissingPositionsAndCandidates pwc).2 ≠ [])
    (hN : i < listProd (effLists wordList pwc)) :
    getCombinationAtIndex wordList pwc true i
      = .ok (some ((decodeMix (effLists wordList pwc) i).map some)) := by
  have htot : (getUpperBound pwc true).toNat = listProd (effLists wordList pwc) := by
    rw [getUpperBound_repeat wordList pwc hw]
    simp
  simp only [getCombinationAtIndex, htot, effLists] at hN ⊢
  rw [if_neg (fun h => hne (List.length_eq_zero.mp h)), if_neg (by omega)]
  rw [gcaiGo_repeat wordList (getMissingPositionsAndCandidates pwc).2 i hN]

/-- Claim C1 counterexample: when every slot is fixed, `N = 1` and the
generator emits one tuple (the empty tuple) at index 0, but
`getCombinationAtIndex` returns `null` for index 0 rather than that tuple. -/
theorem c1_counterexample :
    genTuples (List.replicate 2048 "z") [Slot.fixed "abandon"] true = [[]] ∧
      (0 : Int) < getUpperBound [Slot.fixed "abandon"] true ∧
      getCombinationAtIndex (List.replicate 2048 "z") [Slot.fixed "abandon"] true 0
        = .ok none :=
  ⟨rfl, by decide, rfl⟩

/-- Claim C1 (amended): for every resolved partial mnemonic with at least one
unknown or prefix-candidate slot, and every index `i < N` with repetition
allowed, the `i`-th tuple of the generator's stream is the mixed-radix
decoding of `i` over the per-slot candidate-list sizes (position 0 most
significant, candidate lists in wordlist order), and `getCombinationAtIndex`
returns exactly that tuple.  (With zero such slots, `getCombinationAtIndex`
returns `null` although the generator still emits the empty tuple.) -/
theorem c1_mixed_radix (wordList : List String) (pwc : List Slot) (i : Nat)
    (hw : wordList.length = 2048)
    (hne : (getMissingPositionsAndCandidates pwc).2 ≠ [])
    (hi : (i : Int) < getUpperBound pwc true) :
    (genTuples wordList pwc true)[i]? = some (decodeMix (effLists wordList pwc) i) ∧
      getCombinationAtIndex wordList pwc true i
        = .ok (some ((decodeMix (effLists wordList pwc) i).map some)) := by
  have hN : i < listProd (effLists wordList pwc) := by
    have h := getUpperBound_repeat wordList pwc hw
    rw [h] at hi
    exact_mod_cast hi
  constructor
  · rw [genTuples, permRec_repeat]
    rw [show (prodLists ((getMissingPositionsAndCandidates pwc).2.map
          fun o => o.getD wordList)).map (([] : List String) ++ ·)
        = prodLists (effLists wordList pwc) from by simp [effLists]]
    exact prodLists_getElem? _ i hN
  · exact getCombinationAtIndex_repeat_eq wordList pwc i hw hne hN

theorem c1_mixed_radix_witness :
    (genTuples (List.replicate 2048 "z") [Slot.cands ["alpha", "beta"]] true)[1]?
        = some (decodeMix (effLists (List.replicate 2048 "z")
            [Slot.cands ["alpha", "beta"]]) 1) ∧
      getCombinationAtIndex (List.replicate 2048 "z") [Slot.cands ["alpha", "beta"]] true 1
        = .ok (some ((decodeMix (effLists (List.replicate 2048 "z")
            [Slot.cands ["alpha", "beta"]]) 1).map some)) :=
  c1_mixed_radix (List.replicate 2048 "z") [Slot.cands ["alpha", "beta"]] 1
    (List.length_replicate 2048 "z") (by decide) (by decide)

/-- Claim C9 counterexample: with repeating words disallowed, a prefix slot
followed by an unknown slot makes `combinationsAfterThis` underflow to zero
(`2047 / 2048 = 0`), and the BigInt division `remainingIndex / 0n` throws —
`getCombinationAtIndex` raises instead of returning a tuple or `null`. -/
theorem gcai_nonrepeat_throws (wl : List String) (hlen : wl.length = 2048) :
    getCombinationAtIndex wl [Slot.cands ["a", "b"], Slot.unknown] false 0 = .error () := by
  have hcls : (getMissingPositionsAndCandidates [Slot.cands ["a", "b"], Slot.unknown]).2
      = [some ["a", "b"], none] := by decide
  have htot : (getUpperBound [Slot.cands ["a", "b"], Slot.unknown] false).toNat = 4094 := by
    decide
  have hinner : gcaiGo wl [none] 2047 0 = .error () := by
    rw [gcaiGo]
    simp only [Option.getD_none]
    rw [if_neg (by rw [hlen]; norm_num), if_pos (by rw [hlen])]
  have hg : gcaiGo wl [some ["a", "b"], none] 4094 0 = .error () := by
    rw [gcaiGo]
    simp only [Option.getD_some]
    norm_num
    rw [hinner]
  simp only [getCombinationAtIndex, hcls, htot]
  rw [if_neg (by decide), if_neg (by decide), hg]

theorem c9_counterexample :
    getCombinationAtIndex (List.replicate 2048 "w") [Slot.cands ["a", "b"], Slot.unknown]
        false 0 = .error () :=
  gcai_nonrepeat_throws (List.replicate 2048 "w") (List.length_replicate 2048 "w")

/-- Claim C9 (amended): with repeating words allowed, `getCombinationAtIndex`
is total and returns `null` in exactly two cases — no unknown or
prefix-candidate positions, or `targetIndex ≥` the computed total — and
otherwise returns a tuple whose length is the number of missing positions.
With repeating words disallowed the function is not total: the truncated
BigInt division can reach a division by zero, which throws. -/
theorem c9_null_cases (wordList : List String) (pwc : List Slot) (i : Nat)
    (hw : wordList.length = 2048) :
    (∃ r, getCombinationAtIndex wordList pwc true i = .ok r) ∧
      (getCombinationAtIndex wordList pwc true i = .ok none ↔
        ((getMissingPositionsAndCandidates pwc).2 = [] ∨
          getUpperBound pwc true ≤ (i : Int))) ∧
      (∀ t, getCombinationAtIndex wordList pwc true i = .ok (some t) →
        t.length = (getMissingPositionsAndCandidates pwc).2.length) := by
  have hrep := getUpperBound_repeat wordList pwc hw
  by_cases hcls : (getMissingPositionsAndCandidates pwc).2 = []
  · have hres : getCombinationAtIndex wordList pwc true i = .ok none := by
      simp only [getCombinationAtIndex]
      rw [if_pos (by rw [hcls]; rfl)]
    refine ⟨⟨none, hres⟩, ⟨fun _ => Or.inl hcls, fun _ => hres⟩, ?_⟩
    intro t ht
    rw [hres] at ht
    simp at ht
  · by_cases hle : listProd (effLists wordList pwc) ≤ i
    · have hres : getCombinationAtIndex wordList pwc true i = .ok none := by
        simp only [getCombinationAtIndex]
        rw [if_neg (fun h => hcls (List.length_eq_zero.mp h)),
          if_pos (by rw [hrep]; simpa using hle)]
      refine ⟨⟨none, hres⟩, ⟨fun _ => Or.inr (by rw [hrep]; exact_mod_cast hle),
        fun _ => hres⟩, ?_⟩
      intro t ht
      rw [hres] at ht
      simp at ht
    · push_neg at hle
      have hres := getCombinationAtIndex_repeat_eq wordList pwc i hw hcls hle
      refine ⟨⟨some ((decodeMix (effLists wordList pwc) i).map some), hres⟩, ?_, ?_⟩
      · constructor
        · intro h
          rw [hres] at h
          simp at h
        · rintro (h | h)
          · exact absurd h hcls
          · rw [hrep] at h
            have : listProd (effLists wordList pwc) ≤ i := by exact_mod_cast h
            omega
      · intro t ht
        rw [hres] at ht
        have h2 : List.map some (decodeMix (effLists wordList pwc) i) = t := by
          simpa using ht
        subst h2
        rw [List.length_map, decodeMix_length, effLists, List.length_map]

theorem c9_null_cases_witness :
    (∃ r, getCombinationAtIndex (List.replicate 2048 "z") [Slot.cands ["alpha", "beta"]]
        true 5 = .ok r) ∧
      (getCombinationAtIndex (List.replicate 2048 "z") [Slot.cands ["alpha", "beta"]]
          true 5 = .ok none ↔
        ((getMissingPositionsAndCandidates [Slot.cands ["alpha", "beta"]]).2 = [] ∨
          getUpperBound [Slot.cands ["alpha", "beta"]] true ≤ ((5 : Nat) : Int))) ∧
      (∀ t, getCombinationAtIndex (List.replicate 2048 "z") [Slot.cands ["alpha", "beta"]]
          true 5 = .ok (some t) →
        t.length = (getMissingPositionsAndCandidates [Slot.cands ["alpha", "beta"]]).2.length) :=
  c9_null_cases (List.replicate 2048 "z") [Slot.cands ["alpha", "beta"]] 5
    (List.length_replicate 2048 "z")
